import Mathlib

/-!
# Verification of the `SegTree` segment-tree library

Shallow embedding of `src/src_rs/src/seg_tree.rs`: a binary segment tree
over a monoid, supporting point update (`set`), point read (`get`), range
fold (`fold`) and the two boundary searches (`max_end`, `min_start`).

Rust `assert!` failures, the `unreachable!()` arm, and divergence are made
explicit: fallible operations return `Except SegErr` / `Option`.  Machine
`usize` indices are modelled by `Nat` (all index arithmetic in the source
is on small non-negative quantities guarded by asserts, so no wrap-around
can occur).  The `FnMut` predicates of `max_end` / `min_start` are
modelled as pure `α → Bool` functions.
-/

/-- The monoid laws the Rust `Monoid` trait documents (`op` associative,
`id` a two-sided identity). -/
structure IsMonoid {α : Type} (op : α → α → α) (ident : α) : Prop where
  assoc : ∀ a b c, op (op a b) c = op a (op b c)
  id_left : ∀ a, op ident a = a
  id_right : ∀ a, op a ident = a

/-- Failure modes of the Rust code: the two `assert!` messages
("index out", "invalid range") and the `unreachable!()` arm in `fold`. -/
inductive SegErr where
  | indexOut
  | invalidRange
  | unreachableHit
deriving DecidableEq

/-- The Rust enum `SegTree<M>`: a leaf holding one item, or a node holding
a cached aggregate, a stored length and two children. -/
inductive SegTree (α : Type) where
  | leaf (val : α)
  | node (val : α) (len : Nat) (left : SegTree α) (right : SegTree α)
deriving DecidableEq

namespace SegTree

variable {α : Type}

/-- `SegTree::len`. -/
def len : SegTree α → Nat
  | .leaf _ => 1
  | .node _ n _ _ => n

/-- `SegTree::val`. -/
def val : SegTree α → α
  | .leaf v => v
  | .node v _ _ _ => v

/-- The sequence of leaf values of a tree, in index order (not in the
source; used to state specifications). -/
def toList : SegTree α → List α
  | .leaf v => [v]
  | .node _ _ l r => l.toList ++ r.toList

/-- `SegTree::from_slice`, recursion made explicit with a depth counter:
the source recurses on `slice[..mid]` / `slice[mid..]`, both strictly
shorter than `slice` when `slice.len() >= 2`, so a counter starting at the
slice length always suffices (proved in `fromSliceAux_spec`).  On the
empty slice the source recurses forever (`mid = 0`, `slice[..0]` is again
empty); that divergence is modelled by `none`. -/
def fromSliceAux (op : α → α → α) : Nat → List α → Option (SegTree α)
  | 0, _ => none
  | _ + 1, [] => none
  | _ + 1, [a] => some (.leaf a)
  | fuel + 1, a :: b :: rest =>
    let m := (a :: b :: rest).length / 2
    match fromSliceAux op fuel ((a :: b :: rest).take m),
          fromSliceAux op fuel ((a :: b :: rest).drop m) with
    | some left, some right =>
        some (.node (op left.val right.val) (a :: b :: rest).length left right)
    | _, _ => none

/-- `SegTree::from_slice` (and the `From<&[M::Item]>` impl). -/
def fromSlice (op : α → α → α) (l : List α) : Option (SegTree α) :=
  fromSliceAux op l.length l

/-- `SegTree::new`: `Self::from(&vec![M::id(); n][..])`. -/
def new (op : α → α → α) (ident : α) (n : Nat) : Option (SegTree α) :=
  fromSlice op (List.replicate n ident)

/-- `SegTree::get`.  The `assert!(i < self.len())` is checked at every
recursive entry; its failure is `SegErr.indexOut`. -/
def get? : SegTree α → Nat → Except SegErr α
  | t, i =>
    if i < t.len then
      match t with
      | .leaf v => .ok v
      | .node _ n l r =>
        let mid := n / 2
        if i < mid then l.get? i else r.get? (i - mid)
    else .error .indexOut

/-- `SegTree::set`.  Recomputes the aggregate as
`op(left.val(), right.val())` on the way back up, exactly as the source
does; the `assert!` failure is `SegErr.indexOut`. -/
def set? (op : α → α → α) : SegTree α → Nat → α → Except SegErr (SegTree α)
  | t, i, v =>
    if i < t.len then
      match t with
      | .leaf _ => .ok (.leaf v)
      | .node _ n l r =>
        let mid := n / 2
        if i < mid then
          match l.set? op i v with
          | .ok l' => .ok (.node (op l'.val r.val) n l' r)
          | .error e => .error e
        else
          match r.set? op (i - mid) v with
          | .ok r' => .ok (.node (op l.val r'.val) n l r')
          | .error e => .error e
    else .error .indexOut

/-- `SegTree::fold`.  The two asserts become `SegErr.invalidRange` /
`SegErr.indexOut` (in the source's order), `unreachable!()` becomes
`SegErr.unreachableHit`. -/
def fold? (op : α → α → α) (ident : α) : SegTree α → Nat → Nat → Except SegErr α
  | t, start, e =>
    if start ≤ e then
      if e ≤ t.len then
        if e - start = 0 then .ok ident
        else if e - start = t.len then .ok t.val
        else
          match t with
          | .leaf _ => .error .unreachableHit
          | .node _ n l r =>
            let mid := n / 2
            if e ≤ mid then l.fold? op ident start e
            else if mid ≤ start then r.fold? op ident (start - mid) (e - mid)
            else
              match l.fold? op ident start mid, r.fold? op ident 0 (e - mid) with
              | .ok a, .ok b => .ok (op a b)
              | .error er, _ => .error er
              | .ok _, .error er => .error er
      else .error .indexOut
    else .error .invalidRange

/-- `SegTree::max_end_inner`, with the `&mut` accumulator made an explicit
argument/result pair. -/
def maxEndInner (op : α → α → α) (pred : α → Bool) :
    SegTree α → Nat → α → Nat × α
  | t, start, acc =>
    if start = 0 ∧ pred (op acc t.val) then (t.len, op acc t.val)
    else if start = t.len then (t.len, acc)
    else
      match t with
      | .leaf _ => (0, acc)
      | .node _ n l r =>
        let mid := n / 2
        if start < mid then
          match l.maxEndInner op pred start acc with
          | (leftMax, acc') =>
            if leftMax < mid then (leftMax, acc')
            else
              match r.maxEndInner op pred (max start mid - mid) acc' with
              | (res, acc'') => (mid + res, acc'')
        else
          match r.maxEndInner op pred (max start mid - mid) acc with
          | (res, acc'') => (mid + res, acc'')

/-- `SegTree::max_end`: the `assert!(start <= self.len())` failure is
`SegErr.indexOut`; the accumulator starts at the identity. -/
def maxEnd (op : α → α → α) (ident : α) (t : SegTree α) (start : Nat)
    (pred : α → Bool) : Except SegErr Nat :=
  if start ≤ t.len then .ok (maxEndInner op pred t start ident).1
  else .error .indexOut

/-- `SegTree::min_start_inner`, accumulator made explicit.  Note the
source merges `M::op(acc, &self.val())` — accumulator on the LEFT — even
though `self`'s items sit to the left of the already-accumulated suffix. -/
def minStartInner (op : α → α → α) (pred : α → Bool) :
    SegTree α → Nat → α → Nat × α
  | t, e, acc =>
    if e = t.len ∧ pred (op acc t.val) then (0, op acc t.val)
    else if e = 0 then (0, acc)
    else
      match t with
      | .leaf _ => (1, acc)
      | .node _ n l r =>
        let mid := n / 2
        if mid ≤ e then
          match r.minStartInner op pred (e - mid) acc with
          | (resRight, acc') =>
            if 0 < resRight then (mid + resRight, acc')
            else
              match l.minStartInner op pred (min e mid) acc' with
              | (res, acc'') => (res, acc'')
        else
          match l.minStartInner op pred (min e mid) acc with
          | (res, acc'') => (res, acc'')

/-- `SegTree::min_start`: the `assert!(end <= self.len())` failure is
`SegErr.indexOut`. -/
def minStart (op : α → α → α) (ident : α) (t : SegTree α) (e : Nat)
    (pred : α → Bool) : Except SegErr Nat :=
  if e ≤ t.len then .ok (minStartInner op pred t e ident).1
  else .error .indexOut

/-- Structural well-formedness: exactly the representation invariants
`from_slice` establishes — a node's stored length is the sum of its
children's lengths, the split point is `len / 2` (the left child owns
`len / 2` leaves), and the cached aggregate is `op(left.val, right.val)`. -/
def wf (op : α → α → α) : SegTree α → Prop
  | .leaf _ => True
  | .node v n l r =>
      n = l.len + r.len ∧ l.len = n / 2 ∧ v = op l.val r.val ∧ l.wf op ∧ r.wf op

instance wfDecidable [DecidableEq α] (op : α → α → α) :
    (t : SegTree α) → Decidable (wf op t)
  | .leaf _ => .isTrue trivial
  | .node v n l r =>
    have : Decidable (wf op l) := wfDecidable op l
    have : Decidable (wf op r) := wfDecidable op r
    decidable_of_iff
      (n = l.len + r.len ∧ l.len = n / 2 ∧ v = op l.val r.val ∧ l.wf op ∧ r.wf op)
      Iff.rfl

end SegTree

/-- Left-to-right monoid reduction of a list, starting from the identity:
the specification's "left-to-right monoid reduction". -/
def mfold {α : Type} (op : α → α → α) (ident : α) (l : List α) : α :=
  l.foldl op ident

/-- `l[s..e)` as a list: the slice the specification's `S[i..j]` denotes. -/
def listSlice {α : Type} (l : List α) (s e : Nat) : List α :=
  (l.drop s).take (e - s)


/-- The structural invariant named by the specification: every node's
cached aggregate equals the monoid fold of its subtree's leaves in index
order, every internal node's stored length equals the sum of its two
children's lengths, and every leaf has length 1. -/
def SegTree.invariantHolds {α : Type} (op : α → α → α) (ident : α) :
    SegTree α → Prop
  | .leaf v => (SegTree.leaf v).len = 1
  | .node v n l r =>
      v = mfold op ident (SegTree.toList (.node v n l r)) ∧
      n = l.len + r.len ∧
      SegTree.invariantHolds op ident l ∧ SegTree.invariantHolds op ident r

/-- Concrete monoid for witnesses: addition on `Nat` (the source's
`AddU64` instance, with `usize`/`u64` modelled by `Nat`). -/
def natAdd : Nat → Nat → Nat := fun a b => a + b

/-- The tree `from_slice` builds from `[1, 2]` over `natAdd`. -/
def egTree : SegTree Nat := .node 3 2 (.leaf 1) (.leaf 2)

/-- Concrete non-commutative monoid: concatenation of `List Nat`. -/
def catL : List Nat → List Nat → List Nat := fun a b => a ++ b

/-- Four singleton items over the concatenation monoid. -/
def S4 : List (List Nat) := [[0], [1], [2], [3]]

/-- Predicate for the `min_start` counterexample: true exactly on the
suffixes of `[1, 2, 3]` (so true on the identity `[]`, and monotone for
suffix ranges of `S4` ending at 4: true for short ranges, false once the
range extends to the whole sequence). -/
def suffPred : List Nat → Bool := fun x => x.isSuffixOf [1, 2, 3]

/-! ## Basic lemmas: `mfold`, `listSlice` -/

theorem mfold_nil {α : Type} (op : α → α → α) (ident : α) :
    mfold op ident [] = ident := rfl

theorem foldl_assoc_shift {α : Type} {op : α → α → α}
    (hassoc : ∀ a b c, op (op a b) c = op a (op b c)) :
    ∀ (l : List α) (a b : α), l.foldl op (op a b) = op a (l.foldl op b)
  | [], _, _ => rfl
  | c :: l, a, b => by
    simp only [List.foldl_cons, hassoc, foldl_assoc_shift hassoc l]

theorem mfold_singleton {α : Type} {op : α → α → α} {ident : α}
    (hm : IsMonoid op ident) (a : α) : mfold op ident [a] = a := by
  simp [mfold, hm.id_left]

theorem mfold_append {α : Type} {op : α → α → α} {ident : α}
    (hm : IsMonoid op ident) (xs ys : List α) :
    mfold op ident (xs ++ ys) = op (mfold op ident xs) (mfold op ident ys) := by
  simp only [mfold, List.foldl_append]
  have h1 : List.foldl op (op (List.foldl op ident xs) ident) ys
      = op (List.foldl op ident xs) (List.foldl op ident ys) :=
    foldl_assoc_shift hm.assoc ys _ ident
  rw [← h1, hm.id_right]

theorem listSlice_empty {α : Type} (l : List α) (s : Nat) :
    listSlice l s s = [] := by
  simp [listSlice]

theorem listSlice_all {α : Type} (l : List α) :
    listSlice l 0 l.length = l := by
  simp [listSlice]

theorem listSlice_append_left {α : Type} (xs ys : List α) {s e : Nat}
    (he : e ≤ xs.length) :
    listSlice (xs ++ ys) s e = listSlice xs s e := by
  rcases Nat.le_total s e with hse | hse
  · simp only [listSlice, List.drop_append_eq_append_drop,
      List.take_append_eq_append_take]
    have h1 : s - xs.length = 0 := by omega
    have h2 : e - s - (xs.drop s).length = 0 := by
      simp [List.length_drop]; omega
    simp [h1, h2]
    exact Or.inl (by omega)
  · have h1 : e - s = 0 := by omega
    simp [listSlice, h1]

theorem listSlice_append_right {α : Type} (xs ys : List α) {s e : Nat}
    (hs : xs.length ≤ s) :
    listSlice (xs ++ ys) s e = listSlice ys (s - xs.length) (e - xs.length) := by
  simp only [listSlice, List.drop_append_eq_append_drop]
  have h1 : xs.drop s = [] := List.drop_eq_nil_of_le hs
  have h2 : e - s = e - xs.length - (s - xs.length) := by omega
  simp [h1, h2]

theorem listSlice_append_straddle {α : Type} (xs ys : List α) {s e : Nat}
    (hs : s ≤ xs.length) (he : xs.length ≤ e) :
    listSlice (xs ++ ys) s e
      = listSlice xs s xs.length ++ listSlice ys 0 (e - xs.length) := by
  have h0 : s - xs.length = 0 := by omega
  simp only [listSlice, List.drop_append_eq_append_drop, h0, List.drop_zero,
    List.take_append_eq_append_take, List.length_drop, Nat.sub_zero]
  congr 1
  · rw [List.take_of_length_le (by simp [List.length_drop]; omega),
        List.take_of_length_le (by simp [List.length_drop])]
  · congr 1
    omega

/-! ## Structural lemmas about well-formed trees -/

namespace SegTree

variable {α : Type} {op : α → α → α} {ident : α}

theorem len_pos : ∀ {t : SegTree α}, t.wf op → 1 ≤ t.len
  | .leaf _, _ => le_refl 1
  | .node v n l r, hw => by
    obtain ⟨hn, -, -, hl, hr⟩ := hw
    have h1 := len_pos hl
    have h2 := len_pos hr
    simp only [len]
    omega

theorem toList_length : ∀ {t : SegTree α}, t.wf op → t.toList.length = t.len
  | .leaf _, _ => rfl
  | .node v n l r, hw => by
    obtain ⟨hn, -, -, hl, hr⟩ := hw
    have h1 := toList_length hl
    have h2 := toList_length hr
    simp only [toList, len, List.length_append]
    omega

theorem val_eq_mfold (hm : IsMonoid op ident) :
    ∀ {t : SegTree α}, t.wf op → t.val = mfold op ident t.toList
  | .leaf v, _ => (mfold_singleton hm v).symm
  | .node v n l r, hw => by
    obtain ⟨hn, -, hv, hl, hr⟩ := hw
    simp only [val, toList, mfold_append hm]
    rw [hv, val_eq_mfold hm hl, val_eq_mfold hm hr]

/-- Structural facts at a well-formed node: the children's lengths are
`n / 2` and `n - n / 2`, and `2 ≤ n`. -/
theorem node_lens {v : α} {n : Nat} {l r : SegTree α}
    (hw : (SegTree.node v n l r).wf op) :
    l.len = n / 2 ∧ r.len = n - n / 2 ∧ 2 ≤ n := by
  obtain ⟨hn, hmid, -, hl, hr⟩ := hw
  have h1 := len_pos hl
  have h2 := len_pos hr
  simp only [len] at *
  omega

/-! ## `fromSlice` builds a well-formed tree over exactly the input -/

theorem fromSliceAux_spec :
    ∀ (fuel : Nat) (l : List α), l ≠ [] → l.length ≤ fuel →
      ∃ t : SegTree α, fromSliceAux op fuel l = some t ∧ t.wf op ∧
        t.toList = l ∧ t.len = l.length
  | 0, l, hne, hfu => by
    simp at hfu
    exact absurd hfu hne
  | fuel + 1, [], hne, _ => absurd rfl hne
  | fuel + 1, [a], _, _ =>
    ⟨.leaf a, rfl, trivial, rfl, rfl⟩
  | fuel + 1, a :: b :: rest, _, hfu => by
    set l := a :: b :: rest with hl
    have hlen : 2 ≤ l.length := by simp [hl]
    have hm1 : 1 ≤ l.length / 2 := by omega
    have hm2 : l.length / 2 < l.length := by omega
    have htk : (l.take (l.length / 2)).length = l.length / 2 := by
      simp [List.length_take]; omega
    have hdp : (l.drop (l.length / 2)).length = l.length - l.length / 2 :=
      List.length_drop ..
    have htne : l.take (l.length / 2) ≠ [] := by
      intro h
      rw [h] at htk
      simp at htk
      omega
    have hdne : l.drop (l.length / 2) ≠ [] := by
      intro h
      rw [h] at hdp
      simp at hdp
      omega
    obtain ⟨tl, hteq, htwf, httl, htln⟩ :=
      fromSliceAux_spec fuel (l.take (l.length / 2)) htne
        (by rw [htk]; omega)
    obtain ⟨tr, hreq, hrwf, hrtl, hrln⟩ :=
      fromSliceAux_spec fuel (l.drop (l.length / 2)) hdne
        (by rw [hdp]; omega)
    refine ⟨.node (op tl.val tr.val) l.length tl tr, ?_, ?_, ?_, rfl⟩
    · show fromSliceAux op (fuel + 1) l = _
      rw [hl]
      show (match fromSliceAux op fuel (l.take (l.length / 2)),
              fromSliceAux op fuel (l.drop (l.length / 2)) with
            | some left, some right =>
                some (SegTree.node (op left.val right.val) l.length left right)
            | _, _ => none) = _
      rw [hteq, hreq]
    · refine ⟨?_, ?_, rfl, htwf, hrwf⟩
      · rw [htln, hrln, htk, hdp]
        omega
      · rw [htln, htk]
    · simp only [toList, httl, hrtl, List.take_append_drop]

theorem fromSlice_spec (hne : l ≠ []) :
    ∃ t : SegTree α, fromSlice op l = some t ∧ t.wf op ∧
      t.toList = l ∧ t.len = l.length :=
  fromSliceAux_spec l.length l hne (le_refl _)

theorem fromSlice_some_spec {l : List α} {t : SegTree α}
    (h : fromSlice op l = some t) :
    t.wf op ∧ t.toList = l ∧ t.len = l.length := by
  have hne : l ≠ [] := by
    intro he
    rw [he] at h
    simp [fromSlice, fromSliceAux] at h
  obtain ⟨t', h', hw, htl, hln⟩ :
      ∃ u : SegTree α, fromSlice op l = some u ∧ u.wf op ∧
        u.toList = l ∧ u.len = l.length :=
    fromSlice_spec hne
  rw [h] at h'
  cases h'
  exact ⟨hw, htl, hln⟩

end SegTree

/-! ## Unfolding equations (definitional) -/

namespace SegTree

variable {α : Type} {op : α → α → α} {ident : α}

theorem get?_leaf (v : α) (i : Nat) :
    (SegTree.leaf v).get? i
      = if i < 1 then .ok v else .error .indexOut := rfl

theorem get?_node (w : α) (n : Nat) (l r : SegTree α) (i : Nat) :
    (SegTree.node w n l r).get? i
      = if i < n then (if i < n / 2 then l.get? i else r.get? (i - n / 2))
        else .error .indexOut := rfl

theorem set?_leaf (v w : α) (i : Nat) :
    (SegTree.leaf w).set? op i v
      = if i < 1 then .ok (.leaf v) else .error .indexOut := rfl

theorem set?_node (w v : α) (n : Nat) (l r : SegTree α) (i : Nat) :
    (SegTree.node w n l r).set? op i v
      = if i < n then
          (if i < n / 2 then
            match l.set? op i v with
            | .ok l' => .ok (.node (op l'.val r.val) n l' r)
            | .error e => .error e
          else
            match r.set? op (i - n / 2) v with
            | .ok r' => .ok (.node (op l.val r'.val) n l r')
            | .error e => .error e)
        else .error .indexOut := rfl

theorem fold?_leaf (v : α) (s e : Nat) :
    fold? op ident (.leaf v) s e
      = if s ≤ e then
          if e ≤ 1 then
            if e - s = 0 then .ok ident
            else if e - s = 1 then .ok v
            else .error .unreachableHit
          else .error .indexOut
        else .error .invalidRange := rfl

theorem fold?_node (w : α) (n : Nat) (l r : SegTree α) (s e : Nat) :
    fold? op ident (.node w n l r) s e
      = if s ≤ e then
          if e ≤ n then
            if e - s = 0 then .ok ident
            else if e - s = n then .ok w
            else
              if e ≤ n / 2 then l.fold? op ident s e
              else if n / 2 ≤ s then r.fold? op ident (s - n / 2) (e - n / 2)
              else
                match l.fold? op ident s (n / 2), r.fold? op ident 0 (e - n / 2) with
                | .ok a, .ok b => .ok (op a b)
                | .error er, _ => .error er
                | .ok _, .error er => .error er
          else .error .indexOut
        else .error .invalidRange := rfl

theorem maxEndInner_leaf (pred : α → Bool) (v : α) (start : Nat) (acc : α) :
    maxEndInner op pred (.leaf v) start acc
      = if start = 0 ∧ pred (op acc v) then (1, op acc v)
        else if start = 1 then (1, acc)
        else (0, acc) := rfl

theorem maxEndInner_node (pred : α → Bool) (w : α) (n : Nat) (l r : SegTree α)
    (start : Nat) (acc : α) :
    maxEndInner op pred (.node w n l r) start acc
      = if start = 0 ∧ pred (op acc w) then (n, op acc w)
        else if start = n then (n, acc)
        else if start < n / 2 then
          match l.maxEndInner op pred start acc with
          | (leftMax, acc') =>
            if leftMax < n / 2 then (leftMax, acc')
            else
              match r.maxEndInner op pred (max start (n / 2) - n / 2) acc' with
              | (res, acc'') => (n / 2 + res, acc'')
        else
          match r.maxEndInner op pred (max start (n / 2) - n / 2) acc with
          | (res, acc'') => (n / 2 + res, acc'') := rfl

theorem minStartInner_leaf (pred : α → Bool) (v : α) (e : Nat) (acc : α) :
    minStartInner op pred (.leaf v) e acc
      = if e = 1 ∧ pred (op acc v) then (0, op acc v)
        else if e = 0 then (0, acc)
        else (1, acc) := rfl

theorem minStartInner_node (pred : α → Bool) (w : α) (n : Nat) (l r : SegTree α)
    (e : Nat) (acc : α) :
    minStartInner op pred (.node w n l r) e acc
      = if e = n ∧ pred (op acc w) then (0, op acc w)
        else if e = 0 then (0, acc)
        else if n / 2 ≤ e then
          match r.minStartInner op pred (e - n / 2) acc with
          | (resRight, acc') =>
            if 0 < resRight then (n / 2 + resRight, acc')
            else
              match l.minStartInner op pred (min e (n / 2)) acc' with
              | (res, acc'') => (res, acc'')
        else
          match l.minStartInner op pred (min e (n / 2)) acc with
          | (res, acc'') => (res, acc'') := rfl

end SegTree

/-! ## `get?` and `set?` against the leaf sequence -/

namespace SegTree

variable {α : Type} {op : α → α → α} {ident : α}

theorem get?_spec : ∀ {t : SegTree α}, t.wf op → ∀ {i : Nat}, i < t.len →
    ∃ x, t.get? i = .ok x ∧ t.toList[i]? = some x
  | .leaf v, _, i, hi => by
    have hi0 : i = 0 := by
      simp only [len] at hi
      omega
    subst hi0
    exact ⟨v, rfl, rfl⟩
  | .node w n l r, hw, i, hi => by
    obtain ⟨hmid, hrlen, hn2⟩ := node_lens hw
    obtain ⟨hn, -, -, hl, hr⟩ := hw
    have hll : l.toList.length = l.len := toList_length hl
    simp only [len] at hi
    rw [get?_node, if_pos hi]
    by_cases hcase : i < n / 2
    · rw [if_pos hcase]
      obtain ⟨x, hx1, hx2⟩ := get?_spec hl (i := i) (by omega)
      refine ⟨x, hx1, ?_⟩
      rw [toList, List.getElem?_append_left (by omega), hx2]
    · rw [if_neg hcase]
      obtain ⟨x, hx1, hx2⟩ := get?_spec hr (i := i - n / 2) (by omega)
      refine ⟨x, hx1, ?_⟩
      rw [toList, List.getElem?_append_right (by omega)]
      rw [hll, hmid, hx2]

theorem get?_out {t : SegTree α} {i : Nat} (hi : t.len ≤ i) :
    t.get? i = .error .indexOut := by
  cases t
  · rw [get?_leaf, if_neg]
    simp only [len] at hi
    omega
  · rw [get?_node, if_neg]
    simp only [len] at hi
    omega

theorem set?_spec : ∀ {t : SegTree α}, t.wf op → ∀ {i : Nat}, i < t.len → ∀ (v : α),
    ∃ t' : SegTree α, t.set? op i v = .ok t' ∧ t'.wf op ∧
      t'.toList = t.toList.set i v ∧ t'.len = t.len
  | .leaf w, _, i, hi, v => by
    have hi0 : i = 0 := by
      simp only [len] at hi
      omega
    subst hi0
    exact ⟨.leaf v, rfl, trivial, rfl, rfl⟩
  | .node w n l r, hw, i, hi, v => by
    obtain ⟨hmid, hrlen, hn2⟩ := node_lens hw
    obtain ⟨hn, hmid', hv, hl, hr⟩ := hw
    have hll : l.toList.length = l.len := toList_length hl
    simp only [len] at hi
    rw [set?_node, if_pos hi]
    by_cases hcase : i < n / 2
    · rw [if_pos hcase]
      obtain ⟨l', hx1, hx2, hx3, hx4⟩ := set?_spec hl (i := i) (by omega) v
      rw [hx1]
      refine ⟨.node (op l'.val r.val) n l' r, rfl, ⟨by omega,
        by omega, rfl, hx2, hr⟩, ?_, rfl⟩
      simp only [toList, hx3]
      rw [List.set_append_left _ _ (by omega)]
    · rw [if_neg hcase]
      obtain ⟨r', hx1, hx2, hx3, hx4⟩ := set?_spec hr (i := i - n / 2) (by omega) v
      rw [hx1]
      refine ⟨.node (op l.val r'.val) n l r', rfl, ⟨by omega,
        by omega, rfl, hl, hx2⟩, ?_, rfl⟩
      simp only [toList, hx3]
      rw [List.set_append_right _ _ (by omega), hll, hmid]

theorem set?_out {t : SegTree α} {i : Nat} (hi : t.len ≤ i) (v : α) :
    t.set? op i v = .error .indexOut := by
  cases t
  · rw [set?_leaf, if_neg]
    simp only [len] at hi
    omega
  · rw [set?_node, if_neg]
    simp only [len] at hi
    omega

end SegTree

/-! ## `fold?`: totality on valid ranges and value specification -/

namespace SegTree

variable {α : Type} {op : α → α → α} {ident : α}

theorem fold?_ok : ∀ {t : SegTree α}, t.wf op → ∀ {s e : Nat}, s ≤ e → e ≤ t.len →
    ∃ x, fold? op ident t s e = .ok x
  | .leaf v, _, s, e, hse, het => by
    simp only [len] at het
    rw [fold?_leaf, if_pos hse, if_pos het]
    by_cases h0 : e - s = 0
    · rw [if_pos h0]
      exact ⟨ident, rfl⟩
    · rw [if_neg h0, if_pos (by omega)]
      exact ⟨v, rfl⟩
  | .node w n l r, hw, s, e, hse, het => by
    obtain ⟨hmid, hrlen, hn2⟩ := node_lens hw
    have hl : l.wf op := hw.2.2.2.1
    have hr : r.wf op := hw.2.2.2.2
    simp only [len] at het
    rw [fold?_node, if_pos hse, if_pos het]
    by_cases h0 : e - s = 0
    · rw [if_pos h0]
      exact ⟨ident, rfl⟩
    rw [if_neg h0]
    by_cases hfull : e - s = n
    · rw [if_pos hfull]
      exact ⟨w, rfl⟩
    rw [if_neg hfull]
    by_cases hel : e ≤ n / 2
    · rw [if_pos hel]
      exact fold?_ok hl hse (by omega)
    rw [if_neg hel]
    by_cases hsr : n / 2 ≤ s
    · rw [if_pos hsr]
      exact fold?_ok hr (by omega) (show e - n / 2 ≤ r.len by omega)
    rw [if_neg hsr]
    obtain ⟨a, ha⟩ : ∃ x, fold? op ident l s (n / 2) = .ok x :=
      fold?_ok hl (show s ≤ n / 2 by omega) (show n / 2 ≤ l.len by omega)
    obtain ⟨b, hb⟩ : ∃ x, fold? op ident r 0 (e - n / 2) = .ok x :=
      fold?_ok hr (show 0 ≤ e - n / 2 by omega) (show e - n / 2 ≤ r.len by omega)
    rw [ha, hb]
    exact ⟨op a b, rfl⟩

theorem fold?_spec (hm : IsMonoid op ident) :
    ∀ {t : SegTree α}, t.wf op → ∀ {s e : Nat}, s ≤ e → e ≤ t.len →
      fold? op ident t s e = .ok (mfold op ident (listSlice t.toList s e))
  | .leaf v, _, s, e, hse, het => by
    simp only [len] at het
    rw [fold?_leaf, if_pos hse, if_pos het]
    by_cases h0 : e - s = 0
    · rw [if_pos h0, listSlice, h0]
      simp [mfold]
    · have hs0 : s = 0 := by omega
      have he1 : e = 1 := by omega
      subst hs0
      subst he1
      rw [if_neg h0, if_pos (by omega)]
      rw [show listSlice (SegTree.leaf v).toList 0 1 = [v] from rfl,
          mfold_singleton hm]
  | .node w n l r, hw, s, e, hse, het => by
    obtain ⟨hmid, hrlen, hn2⟩ := node_lens hw
    have hl : l.wf op := hw.2.2.2.1
    have hr : r.wf op := hw.2.2.2.2
    have hll : l.toList.length = l.len := toList_length hl
    have hrl : r.toList.length = r.len := toList_length hr
    have hnl : (SegTree.node w n l r).toList.length = n := by
      simp only [toList, List.length_append]
      omega
    simp only [len] at het
    rw [fold?_node, if_pos hse, if_pos het]
    by_cases h0 : e - s = 0
    · rw [if_pos h0]
      have hes : e = s := by omega
      subst hes
      rw [listSlice_empty, mfold_nil]
    rw [if_neg h0]
    by_cases hfull : e - s = n
    · rw [if_pos hfull]
      have hs0 : s = 0 := by omega
      subst hs0
      have hsl : listSlice (SegTree.node w n l r).toList 0 e
          = (SegTree.node w n l r).toList := by
        rw [listSlice, Nat.sub_zero, List.drop_zero,
          List.take_of_length_le (by omega)]
      rw [hsl, ← val_eq_mfold hm hw]
      rfl
    rw [if_neg hfull]
    by_cases hel : e ≤ n / 2
    · rw [if_pos hel]
      rw [fold?_spec hm hl hse (show e ≤ l.len by omega)]
      congr 1
      rw [toList, listSlice_append_left _ _ (by omega)]
    rw [if_neg hel]
    by_cases hsr : n / 2 ≤ s
    · rw [if_pos hsr]
      rw [fold?_spec hm hr (by omega) (show e - n / 2 ≤ r.len by omega)]
      congr 2
      rw [toList, listSlice_append_right _ _ (by omega), hll, hmid]
    rw [if_neg hsr]
    rw [fold?_spec hm hl (show s ≤ n / 2 by omega) (show n / 2 ≤ l.len by omega),
        fold?_spec hm hr (show 0 ≤ e - n / 2 by omega)
          (show e - n / 2 ≤ r.len by omega)]
    show Except.ok (op (mfold op ident (listSlice l.toList s (n / 2)))
        (mfold op ident (listSlice r.toList 0 (e - n / 2)))) = _
    rw [toList, listSlice_append_straddle _ _ (by omega) (by omega),
        mfold_append hm]
    rw [hll, hmid]

end SegTree

/-! ## `max_end`: the search invariant -/

namespace SegTree

variable {α : Type} {op : α → α → α} {ident : α} {pred : α → Bool}

/-- Invariant of `max_end_inner`: starting from a committed accumulator
`acc` satisfying `pred`, the call returns a frontier `res` with
`start ≤ res ≤ len`, the outgoing accumulator is `acc · fold(start..res)`,
it satisfies `pred`, and the extension by one more leaf fails `pred`
whenever `res < len`.  No monotonicity of `pred` is needed here. -/
theorem maxEndInner_spec (hm : IsMonoid op ident) :
    ∀ {t : SegTree α}, t.wf op →
    ∀ {start : Nat} {acc : α} {res : Nat} {accOut : α},
      maxEndInner op pred t start acc = (res, accOut) →
      start ≤ t.len → pred acc = true →
      start ≤ res ∧ res ≤ t.len ∧
      accOut = op acc (mfold op ident (listSlice t.toList start res)) ∧
      pred accOut = true ∧
      (res < t.len →
        pred (op acc (mfold op ident (listSlice t.toList start (res + 1)))) = false)
  | .leaf v, _, start, acc, res, accOut, heq, hs, hacc => by
    simp only [len] at hs ⊢
    rw [maxEndInner_leaf] at heq
    by_cases h1 : start = 0 ∧ pred (op acc v) = true
    · rw [if_pos h1] at heq
      injection heq with e1 e2
      subst e1
      subst e2
      obtain ⟨hs0, hp⟩ := h1
      subst hs0
      refine ⟨by omega, le_refl _, ?_, hp, by omega⟩
      rw [show listSlice (SegTree.leaf v).toList 0 1 = [v] from rfl,
          mfold_singleton hm]
    · rw [if_neg h1] at heq
      by_cases h2 : start = 1
      · rw [if_pos h2] at heq
        injection heq with e1 e2
        subst e1
        subst e2
        subst h2
        refine ⟨le_refl _, le_refl _, ?_, hacc, by omega⟩
        rw [listSlice_empty, mfold_nil, hm.id_right]
      · rw [if_neg h2] at heq
        injection heq with e1 e2
        subst e1
        subst e2
        have hs0 : start = 0 := by omega
        subst hs0
        have hp : pred (op acc v) = false := by
          cases hb : pred (op acc v)
          · rfl
          · exact absurd ⟨rfl, hb⟩ h1
        refine ⟨le_refl _, by omega, ?_, hacc, fun _ => ?_⟩
        · rw [listSlice_empty, mfold_nil, hm.id_right]
        · rw [show listSlice (SegTree.leaf v).toList 0 (0 + 1) = [v] from rfl,
            mfold_singleton hm]
          exact hp
  | .node w n l r, hw, start, acc, res, accOut, heq, hs, hacc => by
    obtain ⟨hmid, hrlen, hn2⟩ := node_lens hw
    have hl : l.wf op := hw.2.2.2.1
    have hr : r.wf op := hw.2.2.2.2
    have hll : l.toList.length = l.len := toList_length hl
    have hrl : r.toList.length = r.len := toList_length hr
    have hnl : (SegTree.node w n l r).toList.length = n := by
      simp only [toList, List.length_append]
      omega
    simp only [len] at hs ⊢
    rw [maxEndInner_node] at heq
    by_cases h1 : start = 0 ∧ pred (op acc w) = true
    · rw [if_pos h1] at heq
      injection heq with e1 e2
      subst e1
      subst e2
      obtain ⟨hs0, hp⟩ := h1
      subst hs0
      refine ⟨by omega, le_refl _, ?_, hp, by omega⟩
      rw [show listSlice (SegTree.node w n l r).toList 0 n
            = (SegTree.node w n l r).toList by
          rw [listSlice, Nat.sub_zero, List.drop_zero,
            List.take_of_length_le (by omega)]]
      rw [← val_eq_mfold hm hw]
      rfl
    rw [if_neg h1] at heq
    by_cases h2 : start = n
    · rw [if_pos h2] at heq
      injection heq with e1 e2
      subst e1
      subst e2
      subst h2
      refine ⟨le_refl _, le_refl _, ?_, hacc, by omega⟩
      rw [listSlice_empty, mfold_nil, hm.id_right]
    rw [if_neg h2] at heq
    have hsn : start < n := by omega
    by_cases h3 : start < n / 2
    · rw [if_pos h3] at heq
      rcases hpl : l.maxEndInner op pred start acc with ⟨lm, acc1⟩
      rw [hpl] at heq
      dsimp only at heq
      obtain ⟨ih1, ih2, ih3, ih4, ih5⟩ :=
        maxEndInner_spec hm hl hpl (show start ≤ l.len by omega) hacc
      by_cases h4 : lm < n / 2
      · rw [if_pos h4] at heq
        injection heq with e1 e2
        subst e1
        subst e2
        refine ⟨ih1, by omega, ?_, ih4, fun _ => ?_⟩
        · rw [ih3, toList, listSlice_append_left _ _ (by omega)]
        · have h5 := ih5 (by omega)
          rw [toList, listSlice_append_left _ _ (by omega)]
          exact h5
      · rw [if_neg h4] at heq
        have hlm : lm = n / 2 := by omega
        rcases hpr : r.maxEndInner op pred (max start (n / 2) - n / 2) acc1
          with ⟨rm, acc2⟩
        rw [hpr] at heq
        dsimp only at heq
        injection heq with e1 e2
        subst e1
        subst e2
        rw [Nat.max_eq_right (Nat.le_of_lt h3), Nat.sub_self] at hpr
        obtain ⟨jh1, jh2, jh3, jh4, jh5⟩ :=
          maxEndInner_spec hm hr hpr (show 0 ≤ r.len by omega) ih4
        have hacc1 : acc1 = op acc (mfold op ident (listSlice l.toList start (n / 2))) := by
          rw [ih3, hlm]
        have hstr : ∀ e2 : Nat, n / 2 ≤ e2 →
            op acc (mfold op ident (listSlice (SegTree.node w n l r).toList start e2))
              = op acc1 (mfold op ident (listSlice r.toList 0 (e2 - n / 2))) := by
          intro e2 he2
          rw [toList, listSlice_append_straddle _ _ (by omega) (by omega),
            mfold_append hm, ← hm.assoc, hll, hmid, ← hacc1]
        refine ⟨by omega, by omega, ?_, jh4, fun hlt => ?_⟩
        · rw [jh3, hstr (n / 2 + rm) (by omega), Nat.add_sub_cancel_left]
        · have h5 := jh5 (by omega)
          rw [hstr (n / 2 + rm + 1) (by omega),
            show n / 2 + rm + 1 - n / 2 = rm + 1 from by omega]
          exact h5
    · rw [if_neg h3] at heq
      rcases hpr : r.maxEndInner op pred (max start (n / 2) - n / 2) acc
        with ⟨rm, acc2⟩
      rw [hpr] at heq
      dsimp only at heq
      injection heq with e1 e2
      subst e1
      subst e2
      rw [Nat.max_eq_left (by omega)] at hpr
      obtain ⟨jh1, jh2, jh3, jh4, jh5⟩ :=
        maxEndInner_spec hm hr hpr (show start - n / 2 ≤ r.len by omega) hacc
      have hright : ∀ e2 : Nat,
          listSlice (SegTree.node w n l r).toList start e2
            = listSlice r.toList (start - n / 2) (e2 - n / 2) := by
        intro e2
        rw [toList, listSlice_append_right _ _ (by omega), hll, hmid]
      refine ⟨by omega, by omega, ?_, jh4, fun hlt => ?_⟩
      · rw [jh3, hright (n / 2 + rm), Nat.add_sub_cancel_left]
      · have h5 := jh5 (by omega)
        rw [hright (n / 2 + rm + 1), show n / 2 + rm + 1 - n / 2 = rm + 1 by omega]
        exact h5

end SegTree

/-! ## Bounds of the boundary searches for arbitrary predicates -/

namespace SegTree

variable {α : Type} {op : α → α → α} {ident : α} {pred : α → Bool}

theorem maxEndInner_le : ∀ {t : SegTree α}, t.wf op → ∀ {start : Nat} {acc : α},
    (maxEndInner op pred t start acc).1 ≤ t.len
  | .leaf v, _, start, acc => by
    rw [maxEndInner_leaf]
    by_cases h1 : start = 0 ∧ pred (op acc v) = true
    · rw [if_pos h1]
      exact Nat.le_refl _
    · rw [if_neg h1]
      by_cases h2 : start = 1
      · rw [if_pos h2]
        exact Nat.le_refl _
      · rw [if_neg h2]
        exact Nat.zero_le _
  | .node w n l r, hw, start, acc => by
    obtain ⟨hmid, hrlen, hn2⟩ := node_lens hw
    have hl : l.wf op := hw.2.2.2.1
    have hr : r.wf op := hw.2.2.2.2
    simp only [len]
    rw [maxEndInner_node]
    by_cases h1 : start = 0 ∧ pred (op acc w) = true
    · rw [if_pos h1]
    rw [if_neg h1]
    by_cases h2 : start = n
    · rw [if_pos h2]
    rw [if_neg h2]
    by_cases h3 : start < n / 2
    · rw [if_pos h3]
      rcases hpl : l.maxEndInner op pred start acc with ⟨lm, acc1⟩
      dsimp only
      have ihl : lm ≤ l.len := by
        have h : (l.maxEndInner op pred start acc).1 ≤ l.len := maxEndInner_le hl
        rw [hpl] at h
        exact h
      by_cases h4 : lm < n / 2
      · rw [if_pos h4]
        omega
      · rw [if_neg h4]
        rcases hpr : r.maxEndInner op pred (max start (n / 2) - n / 2) acc1
          with ⟨rm, acc2⟩
        dsimp only
        have ihr : rm ≤ r.len := by
          have h : (r.maxEndInner op pred (max start (n / 2) - n / 2) acc1).1 ≤ r.len :=
            maxEndInner_le hr
          rw [hpr] at h
          exact h
        omega
    · rw [if_neg h3]
      rcases hpr : r.maxEndInner op pred (max start (n / 2) - n / 2) acc
        with ⟨rm, acc2⟩
      dsimp only
      have ihr : rm ≤ r.len := by
        have h : (r.maxEndInner op pred (max start (n / 2) - n / 2) acc).1 ≤ r.len :=
          maxEndInner_le hr
        rw [hpr] at h
        exact h
      omega

theorem minStartInner_le : ∀ {t : SegTree α}, t.wf op → ∀ {e : Nat} {acc : α},
    (minStartInner op pred t e acc).1 ≤ t.len
  | .leaf v, _, e, acc => by
    rw [minStartInner_leaf]
    by_cases h1 : e = 1 ∧ pred (op acc v) = true
    · rw [if_pos h1]
      exact Nat.zero_le _
    · rw [if_neg h1]
      by_cases h2 : e = 0
      · rw [if_pos h2]
        exact Nat.zero_le _
      · rw [if_neg h2]
        exact Nat.le_refl _
  | .node w n l r, hw, e, acc => by
    obtain ⟨hmid, hrlen, hn2⟩ := node_lens hw
    have hl : l.wf op := hw.2.2.2.1
    have hr : r.wf op := hw.2.2.2.2
    simp only [len]
    rw [minStartInner_node]
    by_cases h1 : e = n ∧ pred (op acc w) = true
    · rw [if_pos h1]
      omega
    rw [if_neg h1]
    by_cases h2 : e = 0
    · rw [if_pos h2]
      omega
    rw [if_neg h2]
    by_cases h3 : n / 2 ≤ e
    · rw [if_pos h3]
      rcases hpr : r.minStartInner op pred (e - n / 2) acc with ⟨rm, acc1⟩
      dsimp only
      have ihr : rm ≤ r.len := by
        have h : (r.minStartInner op pred (e - n / 2) acc).1 ≤ r.len :=
          minStartInner_le hr
        rw [hpr] at h
        exact h
      by_cases h4 : 0 < rm
      · rw [if_pos h4]
        omega
      · rw [if_neg h4]
        rcases hpl : l.minStartInner op pred (min e (n / 2)) acc1 with ⟨lm, acc2⟩
        dsimp only
        have ihl : lm ≤ l.len := by
          have h : (l.minStartInner op pred (min e (n / 2)) acc1).1 ≤ l.len :=
            minStartInner_le hl
          rw [hpl] at h
          exact h
        omega
    · rw [if_neg h3]
      rcases hpl : l.minStartInner op pred (min e (n / 2)) acc with ⟨lm, acc2⟩
      dsimp only
      have ihl : lm ≤ l.len := by
        have h : (l.minStartInner op pred (min e (n / 2)) acc).1 ≤ l.len :=
          minStartInner_le hl
        rw [hpl] at h
        exact h
      omega

end SegTree

/-! ## Helper facts for the claim theorems and witnesses -/

theorem natAdd_monoid : IsMonoid natAdd 0 :=
  ⟨fun a b c => Nat.add_assoc a b c, fun a => Nat.zero_add a, fun a => Nat.add_zero a⟩

theorem egTree_wf : egTree.wf natAdd := by
  decide

theorem listSlice_set_outside {α : Type} (l : List α) (k i j : Nat) (v : α)
    (hout : j ≤ k ∨ k < i) : listSlice (l.set k v) i j = listSlice l i j := by
  rcases hout with hk | hk
  · by_cases hki : k < i
    · rw [listSlice, listSlice, List.drop_set, if_pos hki]
    · rw [listSlice, listSlice, List.drop_set, if_neg hki, List.set_take,
        List.set_eq_of_length_le]
      rw [List.length_take]
      omega
  · rw [listSlice, listSlice, List.drop_set, if_pos hk]

theorem fold?_invalid {α : Type} {op : α → α → α} {ident : α}
    {t : SegTree α} {s e : Nat} (h : e < s) :
    SegTree.fold? op ident t s e = .error .invalidRange := by
  cases t
  · rw [SegTree.fold?_leaf, if_neg (by omega)]
  · rw [SegTree.fold?_node, if_neg (by omega)]

theorem fold?_rangeOut {α : Type} {op : α → α → α} {ident : α}
    {t : SegTree α} {s e : Nat} (hse : s ≤ e) (h : t.len < e) :
    SegTree.fold? op ident t s e = .error .indexOut := by
  cases t
  · rw [SegTree.fold?_leaf, if_pos hse, if_neg]
    simp only [SegTree.len] at h
    omega
  · rw [SegTree.fold?_node, if_pos hse, if_neg]
    simp only [SegTree.len] at h
    omega

theorem wf_invariantHolds {α : Type} {op : α → α → α} {ident : α}
    (hm : IsMonoid op ident) :
    ∀ {t : SegTree α}, t.wf op → SegTree.invariantHolds op ident t
  | .leaf _, _ => rfl
  | .node v n l r, hw => by
    refine ⟨?_, hw.1, wf_invariantHolds hm hw.2.2.2.1,
      wf_invariantHolds hm hw.2.2.2.2⟩
    exact SegTree.val_eq_mfold hm hw

/-! ## The claims -/

/-- C1: for every tree built from a sequence `S` of length `n ≥ 1` over a
lawful monoid, and all `0 ≤ i ≤ j ≤ n`, `fold(i, j)` equals the
left-to-right monoid reduction of `S[i..j]`, and `fold(i, i)` is the
identity element. -/
theorem C1_fold_correct {α : Type} {op : α → α → α} {ident : α}
    (hm : IsMonoid op ident) {S : List α} {t : SegTree α}
    (hbuild : SegTree.fromSlice op S = some t) :
    (∀ i j : Nat, i ≤ j → j ≤ S.length →
      SegTree.fold? op ident t i j = .ok (mfold op ident (listSlice S i j))) ∧
    (∀ i : Nat, i ≤ S.length → SegTree.fold? op ident t i i = .ok ident) := by
  obtain ⟨hw, htl, hln⟩ := SegTree.fromSlice_some_spec hbuild
  constructor
  · intro i j hij hj
    rw [SegTree.fold?_spec hm hw hij (by omega), htl]
  · intro i hi
    rw [SegTree.fold?_spec hm hw (le_refl i) (by omega), listSlice_empty,
      mfold_nil]

theorem C1_fold_correct_witness :
    SegTree.fold? natAdd 0 egTree 0 2 = .ok 3 ∧
    SegTree.fold? natAdd 0 egTree 1 1 = .ok 0 := by
  have h := C1_fold_correct natAdd_monoid (S := [1, 2]) (t := egTree) rfl
  exact ⟨h.1 0 2 (by decide) (by decide), h.2 1 (by decide)⟩

/-- C4: for every sequence `S` of length `n ≥ 1`, immediately after
construction from `S`, `get(i)` returns `S[i]` for every `0 ≤ i < n`. -/
theorem C4_construction_get {α : Type} {op : α → α → α}
    {S : List α} {t : SegTree α} (hbuild : SegTree.fromSlice op S = some t) :
    ∀ (i : Nat) (h : i < S.length), SegTree.get? t i = .ok (S.get ⟨i, h⟩) := by
  obtain ⟨hw, htl, hln⟩ := SegTree.fromSlice_some_spec hbuild
  intro i h
  obtain ⟨x, hx1, hx2⟩ := SegTree.get?_spec hw (show i < t.len by omega)
  rw [htl, List.getElem?_eq_getElem h] at hx2
  injection hx2 with hx3
  rw [hx1, List.get_eq_getElem, hx3]

theorem C4_construction_get_witness :
    SegTree.get? egTree 0 = .ok 1 ∧ SegTree.get? egTree 1 = .ok 2 :=
  ⟨C4_construction_get
      (show SegTree.fromSlice natAdd [1, 2] = some egTree from rfl) 0
      (by decide),
    C4_construction_get
      (show SegTree.fromSlice natAdd [1, 2] = some egTree from rfl) 1
      (by decide)⟩

/-- C9: `new(n)` terminates for every `n ≥ 1` (totality of the model plus
a `some` result) and builds a tree of length `n` in which every `get(i)`
returns the identity; `new(0)` fails — the source would recurse forever on
the empty slice, modelled as `none` — so the minimum valid size is 1. -/
theorem C9_new {α : Type} (op : α → α → α) (ident : α) :
    (∀ n : Nat, 1 ≤ n → ∃ t : SegTree α, SegTree.new op ident n = some t ∧
      t.len = n ∧ ∀ i : Nat, i < n → SegTree.get? t i = .ok ident) ∧
    SegTree.new op ident 0 = none := by
  constructor
  · intro n hn
    have hlenr : (List.replicate n ident).length = n := List.length_replicate ..
    have hne : List.replicate n ident ≠ [] := by
      intro h
      rw [h] at hlenr
      simp at hlenr
      omega
    obtain ⟨t, heq, hw, htl, hln⟩ := SegTree.fromSlice_spec hne
    refine ⟨t, heq, by omega, ?_⟩
    intro i hi
    obtain ⟨x, hx1, hx2⟩ := SegTree.get?_spec hw (show i < t.len by omega)
    rw [htl, List.getElem?_replicate_of_lt hi] at hx2
    injection hx2 with hx3
    rw [hx1, hx3]
  · rfl

theorem C9_new_witness :
    (∃ t : SegTree Nat, SegTree.new natAdd 0 3 = some t ∧ t.len = 3 ∧
      ∀ i : Nat, i < 3 → SegTree.get? t i = .ok 0) ∧
    SegTree.new natAdd 0 0 = none :=
  ⟨(C9_new natAdd 0).1 3 (by decide), (C9_new natAdd 0).2⟩

/-- C5: after `set(k, v)` on a valid index of a well-formed tree, `get(k)`
returns `v`, `get(i)` is unchanged for `i ≠ k`, every `fold(i, j)` equals
the reduction of the sequence with `v` substituted at position `k`, and
every fold over a range not containing `k` returns its previous value. -/
theorem C5_update {α : Type} {op : α → α → α} {ident : α}
    (hm : IsMonoid op ident) {t : SegTree α} (hw : t.wf op)
    {k : Nat} (hk : k < t.len) (v : α) :
    ∃ t' : SegTree α, t.set? op k v = .ok t' ∧
      SegTree.get? t' k = .ok v ∧
      (∀ i : Nat, i < t.len → i ≠ k → SegTree.get? t' i = SegTree.get? t i) ∧
      (∀ i j : Nat, i ≤ j → j ≤ t.len →
        SegTree.fold? op ident t' i j
          = .ok (mfold op ident (listSlice (t.toList.set k v) i j))) ∧
      (∀ i j : Nat, i ≤ j → j ≤ t.len → (j ≤ k ∨ k < i) →
        SegTree.fold? op ident t' i j = SegTree.fold? op ident t i j) := by
  obtain ⟨t', h1, hw', htl', hln'⟩ := SegTree.set?_spec hw hk v
  have hLlen : t.toList.length = t.len := SegTree.toList_length hw
  refine ⟨t', h1, ?_, ?_, ?_, ?_⟩
  · obtain ⟨x, hx1, hx2⟩ := SegTree.get?_spec hw' (show k < t'.len by omega)
    rw [htl', List.getElem?_set_self (by omega)] at hx2
    injection hx2 with hx3
    rw [hx1, hx3]
  · intro i hi hne
    obtain ⟨x, hx1, hx2⟩ := SegTree.get?_spec hw' (show i < t'.len by omega)
    obtain ⟨y, hy1, hy2⟩ := SegTree.get?_spec hw (show i < t.len by omega)
    rw [htl', List.getElem?_set_ne (fun h => hne h.symm)] at hx2
    rw [hx2] at hy2
    injection hy2 with hy3
    rw [hx1, hy1, hy3]
  · intro i j hij hj
    rw [SegTree.fold?_spec hm hw' hij (by omega), htl']
  · intro i j hij hj hout
    rw [SegTree.fold?_spec hm hw' hij (by omega),
      SegTree.fold?_spec hm hw hij (by omega), htl',
      listSlice_set_outside _ _ _ _ _ hout]

theorem C5_update_witness :
    ∃ t' : SegTree Nat, egTree.set? natAdd 1 5 = .ok t' ∧
      SegTree.get? t' 1 = .ok 5 ∧
      (∀ i : Nat, i < egTree.len → i ≠ 1 →
        SegTree.get? t' i = SegTree.get? egTree i) ∧
      (∀ i j : Nat, i ≤ j → j ≤ egTree.len →
        SegTree.fold? natAdd 0 t' i j
          = .ok (mfold natAdd 0 (listSlice (egTree.toList.set 1 5) i j))) ∧
      (∀ i j : Nat, i ≤ j → j ≤ egTree.len → (j ≤ 1 ∨ 1 < i) →
        SegTree.fold? natAdd 0 t' i j = SegTree.fold? natAdd 0 egTree i j) :=
  C5_update natAdd_monoid egTree_wf (by decide) 5

/-- C6: the structural invariant (aggregates cache the fold of the leaves
below, node length is the sum of the children's lengths, leaves have
length 1, split point at `len / 2`) is established by construction over a
lawful monoid and preserved by every successful `set`. -/
theorem C6_invariant {α : Type} {op : α → α → α} {ident : α}
    (hm : IsMonoid op ident) :
    (∀ (S : List α) (t : SegTree α), SegTree.fromSlice op S = some t →
      t.wf op ∧ SegTree.invariantHolds op ident t) ∧
    (∀ (t : SegTree α) (k : Nat) (v : α) (t' : SegTree α), t.wf op →
      t.set? op k v = .ok t' →
      t'.wf op ∧ SegTree.invariantHolds op ident t') := by
  constructor
  · intro S t h
    have hs := SegTree.fromSlice_some_spec h
    exact ⟨hs.1, wf_invariantHolds hm hs.1⟩
  · intro t k v t' hw hset
    by_cases hk : k < t.len
    · obtain ⟨t'', h1, h2, h3, h4⟩ := SegTree.set?_spec hw hk v
      rw [h1] at hset
      injection hset with h5
      rw [← h5]
      exact ⟨h2, wf_invariantHolds hm h2⟩
    · rw [SegTree.set?_out (by omega) v] at hset
      simp at hset

theorem C6_invariant_witness :
    egTree.wf natAdd ∧ SegTree.invariantHolds natAdd 0 egTree :=
  (C6_invariant natAdd_monoid).1 [1, 2] egTree rfl

/-- C7: the failure modes are exactly as specified: `get`/`set` fail with
index-out-of-range exactly when `i ≥ length`; `fold` fails with
invalid-range exactly when `start > end` (that check precedes the range
bound) and with index-out-of-range exactly when `start ≤ end` and
`end > length`; `max_end` (resp. `min_start`) fails exactly when the
argument exceeds `length`; with valid arguments no operation fails. -/
theorem C7_errors {α : Type} {op : α → α → α} {ident : α}
    {t : SegTree α} (hw : t.wf op) :
    (∀ i : Nat, t.len ≤ i → SegTree.get? t i = .error .indexOut) ∧
    (∀ i : Nat, i < t.len → ∃ x, SegTree.get? t i = .ok x) ∧
    (∀ (i : Nat) (v : α), t.len ≤ i → t.set? op i v = .error .indexOut) ∧
    (∀ (i : Nat) (v : α), i < t.len → ∃ t', t.set? op i v = .ok t') ∧
    (∀ s e : Nat, e < s →
      SegTree.fold? op ident t s e = .error .invalidRange) ∧
    (∀ s e : Nat, s ≤ e → t.len < e →
      SegTree.fold? op ident t s e = .error .indexOut) ∧
    (∀ s e : Nat, s ≤ e → e ≤ t.len →
      ∃ x, SegTree.fold? op ident t s e = .ok x) ∧
    (∀ (pred : α → Bool) (s : Nat), t.len < s →
      SegTree.maxEnd op ident t s pred = .error .indexOut) ∧
    (∀ (pred : α → Bool) (s : Nat), s ≤ t.len →
      ∃ r, SegTree.maxEnd op ident t s pred = .ok r) ∧
    (∀ (pred : α → Bool) (e : Nat), t.len < e →
      SegTree.minStart op ident t e pred = .error .indexOut) ∧
    (∀ (pred : α → Bool) (e : Nat), e ≤ t.len →
      ∃ r, SegTree.minStart op ident t e pred = .ok r) := by
  refine ⟨fun i hi => SegTree.get?_out hi,
    fun i hi => ?_,
    fun i v hi => SegTree.set?_out hi v,
    fun i v hi => ?_,
    fun s e h => fold?_invalid h,
    fun s e hse h => fold?_rangeOut hse h,
    fun s e hse he => SegTree.fold?_ok hw hse he,
    fun pred s hs => ?_,
    fun pred s hs => ?_,
    fun pred e he => ?_,
    fun pred e he => ?_⟩
  · obtain ⟨x, hx, -⟩ := SegTree.get?_spec hw hi
    exact ⟨x, hx⟩
  · obtain ⟨t', ht, -, -, -⟩ := SegTree.set?_spec hw hi v
    exact ⟨t', ht⟩
  · rw [SegTree.maxEnd, if_neg (by omega)]
  · exact ⟨_, by rw [SegTree.maxEnd, if_pos hs]⟩
  · rw [SegTree.minStart, if_neg (by omega)]
  · exact ⟨_, by rw [SegTree.minStart, if_pos he]⟩

theorem C7_errors_witness :
    SegTree.get? egTree 2 = .error .indexOut ∧
    (∃ x, SegTree.get? egTree 1 = .ok x) ∧
    SegTree.fold? natAdd 0 egTree 2 1 = .error .invalidRange ∧
    SegTree.fold? natAdd 0 egTree 1 3 = .error .indexOut ∧
    SegTree.maxEnd natAdd 0 egTree 3 (fun _ => true) = .error .indexOut ∧
    SegTree.minStart natAdd 0 egTree 3 (fun _ => true) = .error .indexOut := by
  have h := @C7_errors Nat natAdd 0 egTree (by decide)
  exact ⟨h.1 2 (by decide), h.2.1 1 (by decide),
    h.2.2.2.2.1 2 1 (by decide), h.2.2.2.2.2.1 1 3 (by decide) (by decide),
    h.2.2.2.2.2.2.2.1 _ 3 (by decide), h.2.2.2.2.2.2.2.2.2.1 _ 3 (by decide)⟩

/-- C8: under the precondition `start ≤ end ≤ length` on a well-formed
tree, `fold` never hits the `unreachable!()` arm: any non-empty sub-range
reaching a leaf is caught by the full-coverage case first. -/
theorem C8_unreachable_dead {α : Type} {op : α → α → α} {ident : α}
    {t : SegTree α} (hw : t.wf op) {s e : Nat} (hse : s ≤ e)
    (het : e ≤ t.len) :
    SegTree.fold? op ident t s e ≠ .error .unreachableHit := by
  obtain ⟨x, hx⟩ := SegTree.fold?_ok hw hse het
  rw [hx]
  simp

theorem C8_unreachable_dead_witness :
    SegTree.fold? natAdd 0 egTree 0 1 ≠ .error .unreachableHit :=
  @C8_unreachable_dead Nat natAdd 0 egTree (by decide) 0 1 (by decide)
    (by decide)

/-- C10: for every well-formed tree and arbitrary predicate — monotone or
not, true on the identity or not — `max_end` and `min_start` with an
in-range argument terminate (the model is total by structural recursion)
and return `ok` with a value in `[0, length]`. -/
theorem C10_search_total {α : Type} (op : α → α → α) (ident : α)
    {t : SegTree α} (hw : t.wf op) :
    (∀ (pred : α → Bool) (start : Nat), start ≤ t.len →
      ∃ r, SegTree.maxEnd op ident t start pred = .ok r ∧ r ≤ t.len) ∧
    (∀ (pred : α → Bool) (e : Nat), e ≤ t.len →
      ∃ r, SegTree.minStart op ident t e pred = .ok r ∧ r ≤ t.len) := by
  constructor
  · intro pred start hs
    refine ⟨(SegTree.maxEndInner op pred t start ident).1, ?_,
      SegTree.maxEndInner_le hw⟩
    rw [SegTree.maxEnd, if_pos hs]
  · intro pred e he
    refine ⟨(SegTree.minStartInner op pred t e ident).1, ?_,
      SegTree.minStartInner_le hw⟩
    rw [SegTree.minStart, if_pos he]

theorem C10_search_total_witness :
    (∃ r, SegTree.maxEnd natAdd 0 egTree 0 (fun _ => false) = .ok r ∧
      r ≤ egTree.len) ∧
    (∃ r, SegTree.minStart natAdd 0 egTree 2 (fun _ => false) = .ok r ∧
      r ≤ egTree.len) :=
  ⟨(C10_search_total natAdd 0 (by decide)).1 (fun _ => false) 0 (by decide),
    (C10_search_total natAdd 0 (by decide)).2 (fun _ => false) 2 (by decide)⟩

/-- C2: on a well-formed tree over a lawful monoid, for `start ≤ length`
and a predicate that is true on the identity and monotone along ranges
growing rightward from `start`, `max_end(start, pred)` returns the largest
`end` in `[start, length]` with `pred(fold(start, end))` true. -/
theorem C2_max_end {α : Type} {op : α → α → α} {ident : α}
    (hm : IsMonoid op ident) {t : SegTree α} (hw : t.wf op)
    {pred : α → Bool} {start : Nat} (hs : start ≤ t.len)
    (hid : pred ident = true)
    (hmono : ∀ e : Nat, e ≤ t.len → ∀ e2 : Nat, e2 ≤ t.len → start ≤ e →
      e ≤ e2 → pred (mfold op ident (listSlice t.toList start e2)) = true →
      pred (mfold op ident (listSlice t.toList start e)) = true) :
    ∃ res : Nat, SegTree.maxEnd op ident t start pred = .ok res ∧
      start ≤ res ∧ res ≤ t.len ∧
      pred (mfold op ident (listSlice t.toList start res)) = true ∧
      (∀ e : Nat, start ≤ e → e ≤ t.len →
        pred (mfold op ident (listSlice t.toList start e)) = true →
        e ≤ res) := by
  rcases hres : SegTree.maxEndInner op pred t start ident with ⟨res, accOut⟩
  obtain ⟨h1, h2, h3, h4, h5⟩ := SegTree.maxEndInner_spec hm hw hres hs hid
  rw [hm.id_left] at h3
  refine ⟨res, ?_, h1, h2, ?_, ?_⟩
  · rw [SegTree.maxEnd, if_pos hs, hres]
  · rw [← h3]
    exact h4
  · intro e he1 he2 hpe
    by_cases hle : e ≤ res
    · exact hle
    · exfalso
      have h6 := h5 (by omega)
      rw [hm.id_left] at h6
      have h7 := hmono (res + 1) (by omega) e (by omega) (by omega)
        (by omega) hpe
      rw [h7] at h6
      exact Bool.noConfusion h6

theorem C2_max_end_witness :
    ∃ res : Nat,
      SegTree.maxEnd natAdd 0 egTree 0 (fun x => decide (x ≤ 1)) = .ok res ∧
      0 ≤ res ∧ res ≤ egTree.len ∧
      (fun x => decide (x ≤ 1))
        (mfold natAdd 0 (listSlice egTree.toList 0 res)) = true ∧
      (∀ e : Nat, 0 ≤ e → e ≤ egTree.len →
        (fun x => decide (x ≤ 1))
          (mfold natAdd 0 (listSlice egTree.toList 0 e)) = true →
        e ≤ res) :=
  C2_max_end natAdd_monoid (by decide) (by decide) (by decide) (by decide)

/-- C3 (code bug): the claimed contract of `min_start` fails on a
non-commutative monoid.  Over the concatenation monoid on `List Nat`, the
tree built from `S4 = [[0], [1], [2], [3]]`, `end = 4`, and the predicate
"is a suffix of `[1, 2, 3]`" — which is true on the identity and monotone
in the leftward-growing sense — `min_start` returns 2, yet `start = 1`
already satisfies `pred(fold(1, 4))`.  The cause: `min_start_inner` merges
`op(acc, self.val())` with the suffix accumulator on the left, where the
leftward extension requires `op(self.val(), acc)`, contradicting the
source's own doc comment (the smallest `start` with
`pred(st.fold(start..end))`). -/
theorem C3_min_start_code_bug :
    IsMonoid catL [] ∧
    suffPred [] = true ∧
    (∀ s : Nat, s ≤ 4 → ∀ s2 : Nat, s2 ≤ 4 → s ≤ s2 →
      suffPred (mfold catL [] (listSlice S4 s 4)) = true →
      suffPred (mfold catL [] (listSlice S4 s2 4)) = true) ∧
    (∃ t : SegTree (List Nat), SegTree.fromSlice catL S4 = some t ∧
      SegTree.minStart catL [] t 4 suffPred = .ok 2) ∧
    suffPred (mfold catL [] (listSlice S4 1 4)) = true ∧ (1 : Nat) < 2 :=
  ⟨⟨fun a b c => List.append_assoc a b c, fun a => rfl,
      fun a => List.append_nil a⟩,
    rfl, by decide, ⟨_, rfl, rfl⟩, rfl, by omega⟩
